import Mathlib

/-!
# DmaSpi: chip select classes (`ChipSelect.h`)

A shallow embedding of the three chip select classes of `ChipSelect.h`
(`DummyChipSelect`, `DebugChipSelect`, `ActiveLowChipSelect`) and of the
abstract interface they implement.

The classes only act on the outside world through five calls into the platform
core: `pinMode`, `digitalWriteFast`, `SPI.beginTransaction`,
`SPI.endTransaction` and `Serial.println`. The world is therefore represented
by the chronological record of those calls; the state of a signal line and of
the bus are read off that record.
-/

namespace DmaSpi

/-! ## Collaborators -/

/-- Modelled from the spec: the bit order component of the Bus Settings value
(the platform type `SPISettings` is declared by the core, not by
`ChipSelect.h`). -/
inductive BitOrder where
  | LSBFIRST
  | MSBFIRST
deriving DecidableEq

/-- Modelled from the spec: the Bus Settings value (`SPISettings`, declared by the
platform core): an immutable value describing clock rate, bit order and
transfer mode. -/
structure SPISettings where
  clock : Nat
  bitOrder : BitOrder
  dataMode : Nat
deriving DecidableEq

/-- Modelled from the spec: the mode argument of `pinMode`. `ChipSelect.h` only
ever passes `OUTPUT` (configure-as-output). -/
inductive PinMode where
  | INPUT
  | OUTPUT
deriving DecidableEq

/-- One call into a collaborator, with its arguments.
`pinMode p OUTPUT` is the spec's `configure_as_output(p)`, `digitalWriteFast p v`
is `set_level(p, v)`, `beginTransaction s` / `endTransaction` are the Bus
Transaction Scope calls and `println m` is the notification sink's `emit(m)`. -/
inductive Event where
  | pinMode (pin : Nat) (mode : PinMode)
  | digitalWriteFast (pin : Nat) (val : Nat)
  | beginTransaction (settings : SPISettings)
  | endTransaction
  | println (msg : String)
deriving DecidableEq

/-- The outside world: every collaborator call made so far, oldest first. -/
abbrev World := List Event

/-- Modelled from the spec: Signal Line `configure_as_output` (the core's `pinMode`);
the call is recorded. -/
def pinMode (pin : Nat) (mode : PinMode) (w : World) : World :=
  w ++ [Event.pinMode pin mode]

/-- Modelled from the spec: Signal Line `set_level` (the core's `digitalWriteFast`);
the call is recorded. -/
def digitalWriteFast (pin : Nat) (val : Nat) (w : World) : World :=
  w ++ [Event.digitalWriteFast pin val]

/-- Modelled from the spec: Bus Transaction Scope `begin_transaction`
(`SPI.beginTransaction`); the call is recorded. -/
def SPI.beginTransaction (settings : SPISettings) (w : World) : World :=
  w ++ [Event.beginTransaction settings]

/-- Modelled from the spec: Bus Transaction Scope `end_transaction`
(`SPI.endTransaction`); the call is recorded. -/
def SPI.endTransaction (w : World) : World :=
  w ++ [Event.endTransaction]

/-- Modelled from the spec: notification sink `emit` (`Serial.println`); the call is
recorded. -/
def Serial.println (msg : String) (w : World) : World :=
  w ++ [Event.println msg]

/-! ## Observations on the record -/

/-- Effect of one event on the level of line `pin`: a level write to that very
line replaces it, anything else leaves it alone. -/
def lineStep (pin : Nat) (lvl : Option Nat) : Event → Option Nat
  | Event.digitalWriteFast q v => if q = pin then some v else lvl
  | _ => lvl

/-- Modelled from the spec: the recorded level of a Signal Line: the last level
written to it, `none` while it was never written. -/
def lineLevel (pin : Nat) (w : World) : Option Nat :=
  w.foldl (lineStep pin) none

/-- Effect of one event on the bus: a begin makes its settings the ones in force,
an end frees the bus, anything else leaves it alone. -/
def busStep (holder : Option SPISettings) : Event → Option SPISettings
  | Event.beginTransaction s => some s
  | Event.endTransaction => none
  | _ => holder

/-- Modelled from the spec: the Bus Transaction Scope state: the settings of the
transaction that is open, `none` when the bus is free. -/
def busHolder (w : World) : Option SPISettings :=
  w.foldl busStep none

/-- Whether a bus transaction is open. -/
def transactionOpen (w : World) : Bool :=
  (busHolder w).isSome

/-- Recogniser of transaction begin events. -/
def Event.isBegin : Event → Bool
  | Event.beginTransaction _ => true
  | _ => false

/-- Recogniser of transaction end events. -/
def Event.isEnd : Event → Bool
  | Event.endTransaction => true
  | _ => false

/-- Recogniser of Signal Line calls. -/
def Event.isLine : Event → Bool
  | Event.pinMode _ _ => true
  | Event.digitalWriteFast _ _ => true
  | _ => false

/-- Recogniser of Bus Transaction Scope calls. -/
def Event.isBus : Event → Bool
  | Event.beginTransaction _ => true
  | Event.endTransaction => true
  | _ => false

/-- Recogniser of notifications. -/
def Event.isNotification : Event → Bool
  | Event.println _ => true
  | _ => false

/-- Number of transaction begin events in a record. -/
def beginCount (w : World) : Nat :=
  w.countP Event.isBegin

/-- Number of transaction end events in a record. -/
def endCount (w : World) : Nat :=
  w.countP Event.isEnd

/-- The events recorded between world `w` and the later world `w2`. -/
def emitted (w w2 : World) : List Event :=
  w2.drop w.length

/-! ## `ChipSelect.h` -/

/-- The class `DummyChipSelect`: no data members. -/
structure DummyChipSelect where
deriving DecidableEq

/-- Member `DummyChipSelect::select`: empty body. -/
def DummyChipSelect.select (self : DummyChipSelect) (w : World) :
    DummyChipSelect × World :=
  (self, w)

/-- Member `DummyChipSelect::deselect`: empty body. -/
def DummyChipSelect.deselect (self : DummyChipSelect) (w : World) :
    DummyChipSelect × World :=
  (self, w)

/-- The class `DebugChipSelect`: no data members. -/
structure DebugChipSelect where
deriving DecidableEq

/-- Member `DebugChipSelect::select`: one `Serial.println` of a fixed text. -/
def DebugChipSelect.select (self : DebugChipSelect) (w : World) :
    DebugChipSelect × World :=
  let w := Serial.println ("Debug CS: select()") w
  (self, w)

/-- Member `DebugChipSelect::deselect`: one `Serial.println` of a fixed text. -/
def DebugChipSelect.deselect (self : DebugChipSelect) (w : World) :
    DebugChipSelect × World :=
  let w := Serial.println ("Debug CS: deselect()") w
  (self, w)

/-- The class `ActiveLowChipSelect`: data members `pin_` (a `const unsigned int`;
it is only stored and passed on, never computed with) and `settings_`. -/
structure ActiveLowChipSelect where
  pin_ : Nat
  settings_ : SPISettings
deriving DecidableEq

/-- The constructor `ActiveLowChipSelect::ActiveLowChipSelect(pin, settings)`:
member initialisers, then `pinMode(pin, OUTPUT)`, then
`digitalWriteFast(pin, 1)`. -/
def ActiveLowChipSelect.new (pin : Nat) (settings : SPISettings) (w : World) :
    ActiveLowChipSelect × World :=
  let self : ActiveLowChipSelect := { pin_ := pin, settings_ := settings }
  let w := pinMode pin PinMode.OUTPUT w
  let w := digitalWriteFast pin 1 w
  (self, w)

/-- Member `ActiveLowChipSelect::select`: `SPI.beginTransaction(settings_)`, then
`digitalWriteFast(pin_, 0)`. -/
def ActiveLowChipSelect.select (self : ActiveLowChipSelect) (w : World) :
    ActiveLowChipSelect × World :=
  let w := SPI.beginTransaction self.settings_ w
  let w := digitalWriteFast self.pin_ 0 w
  (self, w)

/-- Member `ActiveLowChipSelect::deselect`: `digitalWriteFast(pin_, 1)`, then
`SPI.endTransaction()`. -/
def ActiveLowChipSelect.deselect (self : ActiveLowChipSelect) (w : World) :
    ActiveLowChipSelect × World :=
  let w := digitalWriteFast self.pin_ 1 w
  let w := SPI.endTransaction w
  (self, w)

/-- The abstract base class `AbstractChipSelect`, as the closed set of its three
implementers. -/
inductive AbstractChipSelect where
  | dummy (self : DummyChipSelect)
  | debug (self : DebugChipSelect)
  | activeLow (self : ActiveLowChipSelect)
deriving DecidableEq

/-- Virtual dispatch of `select()`. -/
def AbstractChipSelect.select : AbstractChipSelect → World → AbstractChipSelect × World
  | AbstractChipSelect.dummy o, w => (AbstractChipSelect.dummy (o.select w).1, (o.select w).2)
  | AbstractChipSelect.debug o, w => (AbstractChipSelect.debug (o.select w).1, (o.select w).2)
  | AbstractChipSelect.activeLow o, w =>
      (AbstractChipSelect.activeLow (o.select w).1, (o.select w).2)

/-- Virtual dispatch of `deselect()`. -/
def AbstractChipSelect.deselect : AbstractChipSelect → World → AbstractChipSelect × World
  | AbstractChipSelect.dummy o, w =>
      (AbstractChipSelect.dummy (o.deselect w).1, (o.deselect w).2)
  | AbstractChipSelect.debug o, w =>
      (AbstractChipSelect.debug (o.deselect w).1, (o.deselect w).2)
  | AbstractChipSelect.activeLow o, w =>
      (AbstractChipSelect.activeLow (o.deselect w).1, (o.deselect w).2)

/-! ## Callers -/

/-- One call through the `AbstractChipSelect` interface. -/
inductive Call where
  | select
  | deselect
deriving DecidableEq

/-- The other operation. -/
def Call.other : Call → Call
  | Call.select => Call.deselect
  | Call.deselect => Call.select

/-- Perform one interface call. -/
def AbstractChipSelect.call (o : AbstractChipSelect) : Call → World → AbstractChipSelect × World
  | Call.select, w => o.select w
  | Call.deselect, w => o.deselect w

/-- Perform a sequence of interface calls on one instance, first call first. -/
def runCalls : AbstractChipSelect → List Call → World → AbstractChipSelect × World
  | o, [], w => (o, w)
  | o, c :: rest, w => runCalls (o.call c w).1 rest (o.call c w).2

/-- The call sequence strictly alternates, the first call being `c`. -/
def alternatesFrom : Call → List Call → Bool
  | _, [] => true
  | c, d :: rest => decide (d = c) && alternatesFrom c.other rest

/-- A properly alternated call sequence: `select, deselect, select, ...`,
starting with `select` (it may stop after either call). -/
def properlyAlternated (cs : List Call) : Bool :=
  alternatesFrom Call.select cs

/-- The script of `n` complete `select()` / `deselect()` pairs. -/
def pairs : Nat → List Call
  | 0 => []
  | n + 1 => Call.select :: Call.deselect :: pairs n

/-- Level of line `pin` sampled once before the first call of the script and once
after each call. -/
def levelTrace (pin : Nat) : AbstractChipSelect → List Call → World → List (Option Nat)
  | _, [], w => [lineLevel pin w]
  | o, c :: rest, w => lineLevel pin w :: levelTrace pin (o.call c w).1 rest (o.call c w).2

/-! ## Basic facts about the record -/

theorem lineLevel_append (p : Nat) (w l : World) :
    lineLevel p (w ++ l) = l.foldl (lineStep p) (lineLevel p w) := by
  simp [lineLevel, List.foldl_append]

theorem busHolder_append (w l : World) :
    busHolder (w ++ l) = l.foldl busStep (busHolder w) := by
  simp [busHolder, List.foldl_append]

theorem beginCount_append (w l : World) :
    beginCount (w ++ l) = beginCount w + beginCount l := by
  simp [beginCount, List.countP_append]

theorem endCount_append (w l : World) :
    endCount (w ++ l) = endCount w + endCount l := by
  simp [endCount, List.countP_append]

theorem emitted_append (w l : World) : emitted w (w ++ l) = l := by
  simp [emitted]

/-! ## What each member function records -/

theorem new_eq (p : Nat) (s : SPISettings) (w : World) :
    ActiveLowChipSelect.new p s w
      = (ActiveLowChipSelect.mk p s,
         w ++ [Event.pinMode p PinMode.OUTPUT, Event.digitalWriteFast p 1]) := by
  simp [ActiveLowChipSelect.new, pinMode, digitalWriteFast]

theorem select_eq (o : ActiveLowChipSelect) (w : World) :
    o.select w
      = (o, w ++ [Event.beginTransaction o.settings_, Event.digitalWriteFast o.pin_ 0]) := by
  simp [ActiveLowChipSelect.select, SPI.beginTransaction, digitalWriteFast]

theorem deselect_eq (o : ActiveLowChipSelect) (w : World) :
    o.deselect w
      = (o, w ++ [Event.digitalWriteFast o.pin_ 1, Event.endTransaction]) := by
  simp [ActiveLowChipSelect.deselect, SPI.endTransaction, digitalWriteFast]

theorem call_activeLow_fst (o : ActiveLowChipSelect) (c : Call) (w : World) :
    ((AbstractChipSelect.activeLow o).call c w).1 = AbstractChipSelect.activeLow o := by
  cases c <;>
    simp [AbstractChipSelect.call, AbstractChipSelect.select, AbstractChipSelect.deselect,
      select_eq, deselect_eq]

theorem call_activeLow_select (o : ActiveLowChipSelect) (w : World) :
    ((AbstractChipSelect.activeLow o).call Call.select w).2
      = w ++ [Event.beginTransaction o.settings_, Event.digitalWriteFast o.pin_ 0] := by
  simp [AbstractChipSelect.call, AbstractChipSelect.select, select_eq]

theorem call_activeLow_deselect (o : ActiveLowChipSelect) (w : World) :
    ((AbstractChipSelect.activeLow o).call Call.deselect w).2
      = w ++ [Event.digitalWriteFast o.pin_ 1, Event.endTransaction] := by
  simp [AbstractChipSelect.call, AbstractChipSelect.deselect, deselect_eq]

theorem runCalls_activeLow_fst (o : ActiveLowChipSelect) (cs : List Call) (w : World) :
    (runCalls (AbstractChipSelect.activeLow o) cs w).1 = AbstractChipSelect.activeLow o := by
  induction cs generalizing w with
  | nil => rfl
  | cons c rest ih => simp [runCalls, call_activeLow_fst, ih]

/-! ## The event order of the active low class -/

/-- C1. Whatever calls an `ActiveLowChipSelect` built from `(p, s)` has already
served, a `select()` on it, made in any world `w`, records exactly
`beginTransaction s` followed by `digitalWriteFast p 0` after what `w` already
held, and nothing else. -/
theorem select_records_begin_then_low (p : Nat) (s : SPISettings) (w0 : World)
    (history : List Call) (w : World) :
    ((runCalls (AbstractChipSelect.activeLow (ActiveLowChipSelect.new p s w0).1) history
        (ActiveLowChipSelect.new p s w0).2).1.select w).2
      = w ++ [Event.beginTransaction s, Event.digitalWriteFast p 0]
    ∧ emitted w (((ActiveLowChipSelect.new p s w0).1).select w).2
      = [Event.beginTransaction s, Event.digitalWriteFast p 0] := by
  constructor
  · rw [runCalls_activeLow_fst]
    simp [AbstractChipSelect.select, select_eq, new_eq]
  · rw [select_eq, emitted_append]
    simp [new_eq]

/-- C2. Whatever calls an `ActiveLowChipSelect` built from `(p, s)` has already
served, a `deselect()` on it, made in any world `w`, records exactly
`digitalWriteFast p 1` followed by `endTransaction` after what `w` already
held, and nothing else. -/
theorem deselect_records_high_then_end (p : Nat) (s : SPISettings) (w0 : World)
    (history : List Call) (w : World) :
    ((runCalls (AbstractChipSelect.activeLow (ActiveLowChipSelect.new p s w0).1) history
        (ActiveLowChipSelect.new p s w0).2).1.deselect w).2
      = w ++ [Event.digitalWriteFast p 1, Event.endTransaction]
    ∧ emitted w (((ActiveLowChipSelect.new p s w0).1).deselect w).2
      = [Event.digitalWriteFast p 1, Event.endTransaction] := by
  constructor
  · rw [runCalls_activeLow_fst]
    simp [AbstractChipSelect.deselect, deselect_eq, new_eq]
  · rw [deselect_eq, emitted_append]
    simp [new_eq]

/-- C3. Constructing an `ActiveLowChipSelect` with `(p, s)` in any world `w0`
records exactly `pinMode p OUTPUT` followed by `digitalWriteFast p 1`; no bus
call is among them, the bus state is the one of `w0`, and the instance holds
`p` as `pin_` and `s` as `settings_`. -/
theorem constructor_records_output_then_high (p : Nat) (s : SPISettings) (w0 : World) :
    (ActiveLowChipSelect.new p s w0).2
      = w0 ++ [Event.pinMode p PinMode.OUTPUT, Event.digitalWriteFast p 1]
    ∧ emitted w0 (ActiveLowChipSelect.new p s w0).2
      = [Event.pinMode p PinMode.OUTPUT, Event.digitalWriteFast p 1]
    ∧ (∀ e ∈ emitted w0 (ActiveLowChipSelect.new p s w0).2, e.isBus = false)
    ∧ beginCount (emitted w0 (ActiveLowChipSelect.new p s w0).2) = 0
    ∧ busHolder (ActiveLowChipSelect.new p s w0).2 = busHolder w0
    ∧ (ActiveLowChipSelect.new p s w0).1.pin_ = p
    ∧ (ActiveLowChipSelect.new p s w0).1.settings_ = s := by
  simp [new_eq, emitted_append, busHolder_append, busStep, Event.isBus, beginCount,
    Event.isBegin]

/-! ## The two classes that leave the hardware alone -/

theorem call_dummy (d : DummyChipSelect) (c : Call) (w : World) :
    (AbstractChipSelect.dummy d).call c w = (AbstractChipSelect.dummy d, w) := by
  cases c <;>
    simp [AbstractChipSelect.call, AbstractChipSelect.select, AbstractChipSelect.deselect,
      DummyChipSelect.select, DummyChipSelect.deselect]

theorem call_debug_fst (d : DebugChipSelect) (c : Call) (w : World) :
    ((AbstractChipSelect.debug d).call c w).1 = AbstractChipSelect.debug d := by
  cases c <;>
    simp [AbstractChipSelect.call, AbstractChipSelect.select, AbstractChipSelect.deselect,
      DebugChipSelect.select, DebugChipSelect.deselect]

theorem call_debug_select (d : DebugChipSelect) (w : World) :
    ((AbstractChipSelect.debug d).call Call.select w).2
      = w ++ [Event.println ("Debug CS: select()")] := by
  simp [AbstractChipSelect.call, AbstractChipSelect.select, DebugChipSelect.select,
    Serial.println]

theorem call_debug_deselect (d : DebugChipSelect) (w : World) :
    ((AbstractChipSelect.debug d).call Call.deselect w).2
      = w ++ [Event.println ("Debug CS: deselect()")] := by
  simp [AbstractChipSelect.call, AbstractChipSelect.deselect, DebugChipSelect.deselect,
    Serial.println]

theorem runCalls_debug (d : DebugChipSelect) (cs : List Call) (w : World) :
    (runCalls (AbstractChipSelect.debug d) cs w).2
      = w ++ cs.map (fun c => match c with
          | Call.select => Event.println ("Debug CS: select()")
          | Call.deselect => Event.println ("Debug CS: deselect()")) := by
  induction cs generalizing w with
  | nil => simp [runCalls]
  | cons c rest ih =>
    cases c
    · simp [runCalls, call_debug_fst, call_debug_select, ih]
    · simp [runCalls, call_debug_fst, call_debug_deselect, ih]

/-- C7. Any sequence of `select()` / `deselect()` calls on a `DummyChipSelect`, in
any order and in any world `w`, returns the world `w` itself: the list of
recorded events is empty, so no Signal Line, bus or notification call was made
and every observation on the world keeps its value. -/
theorem dummy_records_nothing (d : DummyChipSelect) (cs : List Call) (w : World) :
    (runCalls (AbstractChipSelect.dummy d) cs w).2 = w
    ∧ emitted w (runCalls (AbstractChipSelect.dummy d) cs w).2 = []
    ∧ (∀ p, lineLevel p (runCalls (AbstractChipSelect.dummy d) cs w).2 = lineLevel p w)
    ∧ busHolder (runCalls (AbstractChipSelect.dummy d) cs w).2 = busHolder w := by
  have h : (runCalls (AbstractChipSelect.dummy d) cs w).2 = w := by
    induction cs with
    | nil => rfl
    | cons c rest ih => simp [runCalls, call_dummy, ih]
  simp [h, emitted]

/-- C8. Any sequence `cs` of `select()` / `deselect()` calls on a
`DebugChipSelect`, in any order and in any world `w`, records one `println` per
call, in call order, and nothing else: `"Debug CS: select()"` for `select()` and
`"Debug CS: deselect()"` for `deselect()`. The record grows by `cs.length`
notifications and by no Signal Line or bus call; the two texts differ and each
contains the name of its operation. -/
theorem debug_records_one_notification_per_call (d : DebugChipSelect) (cs : List Call)
    (w : World) :
    (runCalls (AbstractChipSelect.debug d) cs w).2
      = w ++ cs.map (fun c => match c with
          | Call.select => Event.println ("Debug CS: select()")
          | Call.deselect => Event.println ("Debug CS: deselect()"))
    ∧ (emitted w (runCalls (AbstractChipSelect.debug d) cs w).2).length = cs.length
    ∧ (emitted w (runCalls (AbstractChipSelect.debug d) cs w).2).countP Event.isNotification
        = cs.length
    ∧ (∀ e ∈ emitted w (runCalls (AbstractChipSelect.debug d) cs w).2,
        e.isLine = false ∧ e.isBus = false)
    ∧ emitted w (d.select w).2 = [Event.println ("Debug CS: select()")]
    ∧ emitted w (d.deselect w).2 = [Event.println ("Debug CS: deselect()")]
    ∧ ("Debug CS: select()") ≠ ("Debug CS: deselect()")
    ∧ ("select").toList <:+: ("Debug CS: select()").toList
    ∧ ("deselect").toList <:+: ("Debug CS: deselect()").toList := by
  rw [runCalls_debug, emitted_append]
  refine ⟨rfl, by simp, ?_, ?_, ?_, ?_, by decide, ?_, ?_⟩
  · rw [List.countP_map, List.countP_eq_length]
    intro c _
    cases c <;> rfl
  · intro e he
    rw [List.mem_map] at he
    obtain ⟨c, _, rfl⟩ := he
    cases c <;> exact ⟨rfl, rfl⟩
  · simp [DebugChipSelect.select, Serial.println, emitted]
  · simp [DebugChipSelect.deselect, Serial.println, emitted]
  · exact ⟨("Debug CS: ").toList, ("()").toList, by decide⟩
  · exact ⟨("Debug CS: ").toList, ("()").toList, by decide⟩

/-! ## Repeated brackets and unchecked misuse -/

theorem runCalls_pairs (o : ActiveLowChipSelect) (k : Nat) (w : World) :
    (runCalls (AbstractChipSelect.activeLow o) (pairs k) w).2
      = w ++ (List.replicate k
          [Event.beginTransaction o.settings_, Event.digitalWriteFast o.pin_ 0,
           Event.digitalWriteFast o.pin_ 1, Event.endTransaction]).flatten := by
  induction k generalizing w with
  | zero => simp [pairs, runCalls]
  | succ n ih =>
    simp [pairs, runCalls, call_activeLow_fst, call_activeLow_select, call_activeLow_deselect,
      ih, List.replicate_succ]

/-- C9. For `k ≥ 1`, running `k` consecutive `select()` / `deselect()` pairs on an
`ActiveLowChipSelect` built from `(p, s)`, in any world `w`, records exactly `k`
copies of `[beginTransaction s, digitalWriteFast p 0, digitalWriteFast p 1,
endTransaction]` after what `w` held; every begin among them carries `s`, and
the instance still holds `p` and `s` afterwards (no single `select()` or
`deselect()` changes the instance). -/
theorem brackets_repeat_identically (p : Nat) (s : SPISettings) (k : Nat) (w0 w : World)
    (_hk : 1 ≤ k) :
    (runCalls (AbstractChipSelect.activeLow (ActiveLowChipSelect.new p s w0).1) (pairs k) w).2
      = w ++ (List.replicate k
          [Event.beginTransaction s, Event.digitalWriteFast p 0,
           Event.digitalWriteFast p 1, Event.endTransaction]).flatten
    ∧ (∀ s2, Event.beginTransaction s2 ∈ emitted w
          (runCalls (AbstractChipSelect.activeLow (ActiveLowChipSelect.new p s w0).1)
            (pairs k) w).2 → s2 = s)
    ∧ (runCalls (AbstractChipSelect.activeLow (ActiveLowChipSelect.new p s w0).1) (pairs k) w).1
      = AbstractChipSelect.activeLow (ActiveLowChipSelect.mk p s)
    ∧ (∀ (o : ActiveLowChipSelect) (w2 : World),
        (o.select w2).1 = o ∧ (o.deselect w2).1 = o) := by
  refine ⟨?_, ?_, ?_, ?_⟩
  · rw [runCalls_pairs]; simp [new_eq]
  · intro s2 h
    rw [runCalls_pairs, emitted_append, List.mem_flatten] at h
    obtain ⟨l, hl, hmem⟩ := h
    rw [List.eq_of_mem_replicate hl] at hmem
    simpa [new_eq] using hmem
  · rw [runCalls_activeLow_fst]; simp [new_eq]
  · intro o w2
    simp [select_eq, deselect_eq]

/-- Witness of C9 on pin 10 with settings 1 MHz, MSB first, mode 0, two brackets. -/
theorem brackets_repeat_identically_witness :
    1 ≤ 2 ∧
    (runCalls (AbstractChipSelect.activeLow
        (ActiveLowChipSelect.new 10 (SPISettings.mk 1000000 BitOrder.MSBFIRST 0) []).1)
        (pairs 2) []).2
      = [Event.beginTransaction (SPISettings.mk 1000000 BitOrder.MSBFIRST 0),
         Event.digitalWriteFast 10 0, Event.digitalWriteFast 10 1, Event.endTransaction,
         Event.beginTransaction (SPISettings.mk 1000000 BitOrder.MSBFIRST 0),
         Event.digitalWriteFast 10 0, Event.digitalWriteFast 10 1, Event.endTransaction] :=
  ⟨by decide,
   (brackets_repeat_identically 10 (SPISettings.mk 1000000 BitOrder.MSBFIRST 0) 2 [] []
      (by decide)).1⟩

/-- C10. `ActiveLowChipSelect` checks nothing before acting. For every instance
`o` in any world `w`: `select()` called twice in a row (not a properly
alternated sequence) records `beginTransaction o.settings_` a second time while
the transaction of the first call is open, with no `endTransaction` in between
and line `o.pin_` at level 0 before, between and after the two events of the
second call. On an instance just built from `(p, s)`, `deselect()` called first
records `endTransaction` although the instance has recorded no begin. In both
cases the misplaced call records the same events as the same call in a properly
alternated sequence. -/
theorem misuse_is_not_checked (o : ActiveLowChipSelect) (w : World) (p : Nat)
    (s : SPISettings) (w0 : World) :
    properlyAlternated [Call.select, Call.select] = false
    ∧ (runCalls (AbstractChipSelect.activeLow o) [Call.select, Call.select] w).2
        = w ++ [Event.beginTransaction o.settings_, Event.digitalWriteFast o.pin_ 0,
                Event.beginTransaction o.settings_, Event.digitalWriteFast o.pin_ 0]
    ∧ transactionOpen (runCalls (AbstractChipSelect.activeLow o) [Call.select] w).2 = true
    ∧ lineLevel o.pin_ (runCalls (AbstractChipSelect.activeLow o) [Call.select] w).2 = some 0
    ∧ lineLevel o.pin_
        ((runCalls (AbstractChipSelect.activeLow o) [Call.select] w).2
          ++ [Event.beginTransaction o.settings_]) = some 0
    ∧ lineLevel o.pin_
        (runCalls (AbstractChipSelect.activeLow o) [Call.select, Call.select] w).2 = some 0
    ∧ emitted (runCalls (AbstractChipSelect.activeLow o) [Call.select] w).2
        (runCalls (AbstractChipSelect.activeLow o) [Call.select, Call.select] w).2
        = emitted w (runCalls (AbstractChipSelect.activeLow o) [Call.select] w).2
    ∧ properlyAlternated [Call.deselect] = false
    ∧ (runCalls (AbstractChipSelect.activeLow (ActiveLowChipSelect.new p s w0).1)
          [Call.deselect] (ActiveLowChipSelect.new p s w0).2).2
        = (ActiveLowChipSelect.new p s w0).2
            ++ [Event.digitalWriteFast p 1, Event.endTransaction]
    ∧ beginCount (emitted w0 (ActiveLowChipSelect.new p s w0).2) = 0
    ∧ emitted (ActiveLowChipSelect.new p s w0).2
        (runCalls (AbstractChipSelect.activeLow (ActiveLowChipSelect.new p s w0).1)
          [Call.deselect] (ActiveLowChipSelect.new p s w0).2).2
        = emitted
            (runCalls (AbstractChipSelect.activeLow (ActiveLowChipSelect.new p s w0).1)
              [Call.select] (ActiveLowChipSelect.new p s w0).2).2
            (runCalls (AbstractChipSelect.activeLow (ActiveLowChipSelect.new p s w0).1)
              [Call.select, Call.deselect] (ActiveLowChipSelect.new p s w0).2).2 := by
  refine ⟨by decide, ?_, ?_, ?_, ?_, ?_, ?_, by decide, ?_, ?_, ?_⟩ <;>
    simp [runCalls, call_activeLow_fst, call_activeLow_select, call_activeLow_deselect,
      new_eq, transactionOpen, busHolder_append, lineLevel_append, lineStep, busStep,
      emitted, beginCount, Event.isBegin]

/-! ## Properly alternated call sequences -/

theorem runCalls_append (o : AbstractChipSelect) (a b : List Call) (w : World) :
    runCalls o (a ++ b) w = runCalls (runCalls o a w).1 b (runCalls o a w).2 := by
  induction a generalizing o w with
  | nil => rfl
  | cons c rest ih => simp [runCalls, ih]

theorem runCalls_activeLow_concat (o : ActiveLowChipSelect) (cs : List Call) (d : Call)
    (w : World) :
    (runCalls (AbstractChipSelect.activeLow o) (cs ++ [d]) w).2
      = ((AbstractChipSelect.activeLow o).call d
          (runCalls (AbstractChipSelect.activeLow o) cs w).2).2 := by
  rw [runCalls_append, runCalls_activeLow_fst]
  rfl

theorem runCalls_activeLow_frame (o : ActiveLowChipSelect) (cs : List Call) (w0 x : World) :
    (runCalls (AbstractChipSelect.activeLow o) cs (w0 ++ x)).2
      = w0 ++ (runCalls (AbstractChipSelect.activeLow o) cs x).2 := by
  induction cs generalizing x with
  | nil => rfl
  | cons c rest ih =>
    cases c
    · simp only [runCalls, call_activeLow_fst, call_activeLow_select, List.append_assoc, ih]
    · simp only [runCalls, call_activeLow_fst, call_activeLow_deselect, List.append_assoc, ih]

theorem alternatesFrom_concat (c d : Call) (cs : List Call)
    (h : alternatesFrom c (cs ++ [d]) = true) :
    alternatesFrom c cs = true
    ∧ (cs.getLast? = none → d = c)
    ∧ (∀ x, cs.getLast? = some x → d = x.other) := by
  induction cs generalizing c with
  | nil =>
    simp [alternatesFrom] at h
    simp [alternatesFrom, h]
  | cons e rest ih =>
    simp only [List.cons_append, alternatesFrom, Bool.and_eq_true, decide_eq_true_eq] at h
    obtain ⟨he, hrest⟩ := h
    obtain ⟨h1, h2, h3⟩ := ih c.other hrest
    refine ⟨by simp [alternatesFrom, he, h1], by simp, ?_⟩
    intro x hx
    cases rest with
    | nil =>
      simp at hx
      rw [← hx, he]
      exact h2 rfl
    | cons f rest2 =>
      rw [List.getLast?_cons_cons] at hx
      exact h3 x hx

theorem alternatesFrom_take (c : Call) (cs : List Call) (k : Nat)
    (h : alternatesFrom c cs = true) : alternatesFrom c (cs.take k) = true := by
  induction cs generalizing c k with
  | nil => simp [alternatesFrom]
  | cons e rest ih =>
    cases k with
    | zero => simp [alternatesFrom]
    | succ n =>
      simp only [alternatesFrom, Bool.and_eq_true, decide_eq_true_eq] at h
      simp [alternatesFrom, h.1, ih c.other n h.2]

theorem initial_part_append_pair (t w : World) (e1 e2 : Event) :
    t <+: w ++ [e1, e2] ↔ t <+: w ∨ t = w ++ [e1] ∨ t = w ++ [e1, e2] := by
  have h : w ++ [e1, e2] = (w ++ [e1]) ++ [e2] := by simp
  rw [h, List.prefix_concat_iff, List.prefix_concat_iff]
  simp only [List.append_assoc, List.singleton_append]
  tauto

/-- Summary of the record of construction followed by a properly alternated call
sequence, started on an empty record: where the sequence stops outside a
bracket the line is high and begins balance ends; where it stops inside a
bracket there is one begin more; and no initial part of the record has the line
low without an open transaction of the instance. -/
theorem alternated_summary (o : ActiveLowChipSelect) (cs : List Call)
    (halt : properlyAlternated cs = true) :
    (cs.getLast? ≠ some Call.select →
      lineLevel o.pin_ (runCalls (AbstractChipSelect.activeLow o) cs
          [Event.pinMode o.pin_ PinMode.OUTPUT, Event.digitalWriteFast o.pin_ 1]).2 = some 1
      ∧ beginCount (runCalls (AbstractChipSelect.activeLow o) cs
          [Event.pinMode o.pin_ PinMode.OUTPUT, Event.digitalWriteFast o.pin_ 1]).2
        = endCount (runCalls (AbstractChipSelect.activeLow o) cs
          [Event.pinMode o.pin_ PinMode.OUTPUT, Event.digitalWriteFast o.pin_ 1]).2)
    ∧ (cs.getLast? = some Call.select →
      beginCount (runCalls (AbstractChipSelect.activeLow o) cs
          [Event.pinMode o.pin_ PinMode.OUTPUT, Event.digitalWriteFast o.pin_ 1]).2
        = endCount (runCalls (AbstractChipSelect.activeLow o) cs
          [Event.pinMode o.pin_ PinMode.OUTPUT, Event.digitalWriteFast o.pin_ 1]).2 + 1)
    ∧ (∀ t, t <+: (runCalls (AbstractChipSelect.activeLow o) cs
          [Event.pinMode o.pin_ PinMode.OUTPUT, Event.digitalWriteFast o.pin_ 1]).2 →
        lineLevel o.pin_ t = some 0 →
        endCount t < beginCount t ∧ busHolder t = some o.settings_) := by
  induction cs using List.reverseRecOn with
  | nil =>
    refine ⟨fun _ => by simp [runCalls, lineLevel, lineStep, beginCount, endCount,
      Event.isBegin, Event.isEnd], by simp, ?_⟩
    intro t ht hlow
    have ht2 : t <+: ([] : World) ++
        [Event.pinMode o.pin_ PinMode.OUTPUT, Event.digitalWriteFast o.pin_ 1] := by
      simpa [runCalls] using ht
    rw [initial_part_append_pair, List.prefix_nil] at ht2
    rcases ht2 with h | h | h <;> subst h <;> simp [lineLevel, lineStep] at hlow
  | append_singleton cs d ih =>
    obtain ⟨hcs, hnone, hsome⟩ := alternatesFrom_concat Call.select d cs halt
    obtain ⟨hrest, hopen, hsafe⟩ := ih hcs
    rw [runCalls_activeLow_concat, List.getLast?_concat]
    cases d with
    | select =>
      have hlast : cs.getLast? ≠ some Call.select := by
        intro hx
        have := hsome _ hx
        simp [Call.other] at this
      obtain ⟨hlvl, hbal⟩ := hrest hlast
      rw [call_activeLow_select]
      refine ⟨by simp, fun _ => ?_, ?_⟩
      · rw [beginCount_append, endCount_append, hbal]
        simp [beginCount, endCount, Event.isBegin, Event.isEnd]
      · intro t ht hlow
        rw [initial_part_append_pair] at ht
        rcases ht with h | h | h
        · exact hsafe t h hlow
        · subst h
          simp [lineLevel_append, lineStep, hlvl] at hlow
        · subst h
          constructor
          · rw [beginCount_append, endCount_append, hbal]
            simp [beginCount, endCount, Event.isBegin, Event.isEnd]
          · simp [busHolder_append, busStep]
    | deselect =>
      have hlast : cs.getLast? = some Call.select := by
        cases hx : cs.getLast? with
        | none => exact absurd (hnone hx) (by decide)
        | some x =>
          have := hsome x hx
          cases x
          · rfl
          · simp [Call.other] at this
      have hbal := hopen hlast
      rw [call_activeLow_deselect]
      refine ⟨fun _ => ⟨by simp [lineLevel_append, lineStep], ?_⟩, by simp, ?_⟩
      · rw [beginCount_append, endCount_append, hbal]
        simp [beginCount, endCount, Event.isBegin, Event.isEnd]
      · intro t ht hlow
        rw [initial_part_append_pair] at ht
        rcases ht with h | h | h
        · exact hsafe t h hlow
        · subst h
          simp [lineLevel_append, lineStep] at hlow
        · subst h
          simp [lineLevel_append, lineStep] at hlow

theorem levelTrace_pairs (o : ActiveLowChipSelect) (n : Nat) (w : World)
    (h : lineLevel o.pin_ w = some 1) :
    levelTrace o.pin_ (AbstractChipSelect.activeLow o) (pairs n) w
      = (List.range (2 * n + 1)).map (fun i => if i % 2 = 0 then some 1 else some 0) := by
  induction n generalizing w with
  | zero => simp [pairs, levelTrace, h, List.range_succ_eq_map]
  | succ m ih =>
    have hr : 2 * (m + 1) + 1 = (2 * m + 1) + 1 + 1 := by ring
    rw [hr, List.range_succ_eq_map, List.range_succ_eq_map]
    simp only [pairs, levelTrace, call_activeLow_fst, call_activeLow_select,
      call_activeLow_deselect, List.map_cons, List.map_map]
    rw [ih _ (by simp [lineLevel_append, lineStep])]
    simp only [h, lineLevel_append, lineStep, Function.comp_def, Nat.succ_eq_add_one,
      List.foldl_cons, List.foldl_nil, if_true]
    have hmod : ∀ a : Nat, (a + 1 + 1) % 2 = a % 2 := fun a => by omega
    simp [hmod]

/-- C5. For every `N`, pin `p`, settings `s` and starting world `w0`: building an
`ActiveLowChipSelect` from `(p, s)` and running `N` `select()` / `deselect()`
pairs, with the level of line `p` sampled after construction and after each
call, gives `2 * N + 1` samples, sample `i` being 1 for even `i` and 0 for odd
`i`. -/
theorem level_trace_alternates (N p : Nat) (s : SPISettings) (w0 : World) :
    levelTrace p (AbstractChipSelect.activeLow (ActiveLowChipSelect.new p s w0).1) (pairs N)
        (ActiveLowChipSelect.new p s w0).2
      = (List.range (2 * N + 1)).map (fun i => if i % 2 = 0 then some 1 else some 0)
    ∧ (levelTrace p (AbstractChipSelect.activeLow (ActiveLowChipSelect.new p s w0).1) (pairs N)
        (ActiveLowChipSelect.new p s w0).2).length = 2 * N + 1 := by
  have h := levelTrace_pairs (ActiveLowChipSelect.mk p s) N
    (w0 ++ [Event.pinMode p PinMode.OUTPUT, Event.digitalWriteFast p 1])
    (by simp [lineLevel_append, lineStep])
  simp only [new_eq]
  exact ⟨h, by rw [h]; simp⟩

/-- C4. Build an `ActiveLowChipSelect` from `(p, s)` in a world `w0` with no
transaction open and serve a properly alternated call sequence `cs`. After any
number `k` of completed calls: if the last completed call is not a `select()`
(nothing called yet, or a `deselect()`), line `p` is at level 1, no transaction
is open and the instance has recorded as many ends as begins; if it is a
`select()`, line `p` is at level 0, a transaction with settings `s` is open and
the instance has recorded one begin more than ends. -/
theorem state_after_each_call (p : Nat) (s : SPISettings) (w0 : World) (cs : List Call)
    (k : Nat) (hbus : transactionOpen w0 = false) (halt : properlyAlternated cs = true) :
    ((cs.take k).getLast? ≠ some Call.select →
      lineLevel p (runCalls (AbstractChipSelect.activeLow (ActiveLowChipSelect.new p s w0).1)
          (cs.take k) (ActiveLowChipSelect.new p s w0).2).2 = some 1
      ∧ transactionOpen (runCalls
          (AbstractChipSelect.activeLow (ActiveLowChipSelect.new p s w0).1)
          (cs.take k) (ActiveLowChipSelect.new p s w0).2).2 = false
      ∧ beginCount (emitted w0 (runCalls
          (AbstractChipSelect.activeLow (ActiveLowChipSelect.new p s w0).1)
          (cs.take k) (ActiveLowChipSelect.new p s w0).2).2)
        = endCount (emitted w0 (runCalls
          (AbstractChipSelect.activeLow (ActiveLowChipSelect.new p s w0).1)
          (cs.take k) (ActiveLowChipSelect.new p s w0).2).2))
    ∧ ((cs.take k).getLast? = some Call.select →
      lineLevel p (runCalls (AbstractChipSelect.activeLow (ActiveLowChipSelect.new p s w0).1)
          (cs.take k) (ActiveLowChipSelect.new p s w0).2).2 = some 0
      ∧ transactionOpen (runCalls
          (AbstractChipSelect.activeLow (ActiveLowChipSelect.new p s w0).1)
          (cs.take k) (ActiveLowChipSelect.new p s w0).2).2 = true
      ∧ busHolder (runCalls
          (AbstractChipSelect.activeLow (ActiveLowChipSelect.new p s w0).1)
          (cs.take k) (ActiveLowChipSelect.new p s w0).2).2 = some s
      ∧ beginCount (emitted w0 (runCalls
          (AbstractChipSelect.activeLow (ActiveLowChipSelect.new p s w0).1)
          (cs.take k) (ActiveLowChipSelect.new p s w0).2).2)
        = endCount (emitted w0 (runCalls
          (AbstractChipSelect.activeLow (ActiveLowChipSelect.new p s w0).1)
          (cs.take k) (ActiveLowChipSelect.new p s w0).2).2) + 1) := by
  have halt2 : properlyAlternated (cs.take k) = true := alternatesFrom_take _ _ _ halt
  obtain ⟨hrest, hopen, _⟩ := alternated_summary (ActiveLowChipSelect.mk p s) (cs.take k) halt2
  have hfree : busHolder w0 = none := by
    cases hb : busHolder w0 with
    | none => rfl
    | some x => simp [transactionOpen, hb] at hbus
  simp only [new_eq, runCalls_activeLow_frame, emitted_append]
  refine ⟨fun hlast => ⟨?_, ?_, (hrest hlast).2⟩, fun hlast => ⟨?_, ?_, ?_, hopen hlast⟩⟩ <;>
    clear hrest hopen halt2 <;>
    rcases List.eq_nil_or_concat (cs.take k) with h | ⟨init, d, h⟩ <;>
    (try rw [List.concat_eq_append] at h) <;>
    rw [h] at hlast ⊢
  · simp [runCalls, lineLevel_append, lineStep]
  · cases d with
    | select => simp at hlast
    | deselect =>
      rw [runCalls_activeLow_concat, call_activeLow_deselect, ← List.append_assoc]
      simp [lineLevel_append, lineStep]
  · simp [runCalls, transactionOpen, busHolder_append, busStep, hfree]
  · cases d with
    | select => simp at hlast
    | deselect =>
      rw [runCalls_activeLow_concat, call_activeLow_deselect, ← List.append_assoc]
      simp [transactionOpen, busHolder_append, busStep]
  · simp at hlast
  · cases d with
    | deselect => simp at hlast
    | select =>
      rw [runCalls_activeLow_concat, call_activeLow_select, ← List.append_assoc]
      simp [lineLevel_append, lineStep]
  · simp at hlast
  · cases d with
    | deselect => simp at hlast
    | select =>
      rw [runCalls_activeLow_concat, call_activeLow_select, ← List.append_assoc]
      simp [transactionOpen, busHolder_append, busStep]
  · simp at hlast
  · cases d with
    | deselect => simp at hlast
    | select =>
      rw [runCalls_activeLow_concat, call_activeLow_select, ← List.append_assoc]
      simp [busHolder_append, busStep]

/-- Witness of C4: pin 10, settings 1 MHz / MSB first / mode 0, an empty starting
record, the sequence `select, deselect, select` observed after its third
call. -/
theorem state_after_each_call_witness :
    transactionOpen [] = false
    ∧ properlyAlternated [Call.select, Call.deselect, Call.select] = true
    ∧ lineLevel 10 (runCalls
        (AbstractChipSelect.activeLow
          (ActiveLowChipSelect.new 10 (SPISettings.mk 1000000 BitOrder.MSBFIRST 0) []).1)
        ([Call.select, Call.deselect, Call.select].take 3)
        (ActiveLowChipSelect.new 10 (SPISettings.mk 1000000 BitOrder.MSBFIRST 0) []).2).2
      = some 0
    ∧ transactionOpen (runCalls
        (AbstractChipSelect.activeLow
          (ActiveLowChipSelect.new 10 (SPISettings.mk 1000000 BitOrder.MSBFIRST 0) []).1)
        ([Call.select, Call.deselect, Call.select].take 3)
        (ActiveLowChipSelect.new 10 (SPISettings.mk 1000000 BitOrder.MSBFIRST 0) []).2).2
      = true :=
  ⟨by decide, by decide,
   ((state_after_each_call 10 (SPISettings.mk 1000000 BitOrder.MSBFIRST 0) []
      [Call.select, Call.deselect, Call.select] 3 (by decide) (by decide)).2 (by decide)).1,
   ((state_after_each_call 10 (SPISettings.mk 1000000 BitOrder.MSBFIRST 0) []
      [Call.select, Call.deselect, Call.select] 3 (by decide) (by decide)).2 (by decide)).2.1⟩

/-- C6. Build an `ActiveLowChipSelect` from `(p, s)` and serve a properly
alternated call sequence. Every initial part `t` of the events recorded by the
instance, cut at any event (also between the two events of one call), in which
the last level written to line `p` is 0 has more begin than end events, and a
transaction is open in it whose settings are `s`. -/
theorem asserted_only_inside_transaction (p : Nat) (s : SPISettings) (w0 : World)
    (cs : List Call) (t : List Event) (halt : properlyAlternated cs = true)
    (ht : t <+: emitted w0 (runCalls
        (AbstractChipSelect.activeLow (ActiveLowChipSelect.new p s w0).1) cs
        (ActiveLowChipSelect.new p s w0).2).2)
    (hlow : lineLevel p t = some 0) :
    endCount t < beginCount t ∧ transactionOpen t = true ∧ busHolder t = some s := by
  simp only [new_eq, runCalls_activeLow_frame, emitted_append] at ht
  obtain ⟨h1, h2⟩ := (alternated_summary (ActiveLowChipSelect.mk p s) cs halt).2.2 t ht hlow
  exact ⟨h1, by simp [transactionOpen, h2], h2⟩

/-- Witness of C6: pin 10, one `select()`, the record cut after its second event. -/
theorem asserted_only_inside_transaction_witness :
    properlyAlternated [Call.select] = true
    ∧ lineLevel 10 [Event.pinMode 10 PinMode.OUTPUT, Event.digitalWriteFast 10 1,
        Event.beginTransaction (SPISettings.mk 1000000 BitOrder.MSBFIRST 0),
        Event.digitalWriteFast 10 0] = some 0
    ∧ endCount [Event.pinMode 10 PinMode.OUTPUT, Event.digitalWriteFast 10 1,
        Event.beginTransaction (SPISettings.mk 1000000 BitOrder.MSBFIRST 0),
        Event.digitalWriteFast 10 0]
      < beginCount [Event.pinMode 10 PinMode.OUTPUT, Event.digitalWriteFast 10 1,
        Event.beginTransaction (SPISettings.mk 1000000 BitOrder.MSBFIRST 0),
        Event.digitalWriteFast 10 0] :=
  ⟨by decide, by decide,
   (asserted_only_inside_transaction 10 (SPISettings.mk 1000000 BitOrder.MSBFIRST 0) []
      [Call.select]
      [Event.pinMode 10 PinMode.OUTPUT, Event.digitalWriteFast 10 1,
        Event.beginTransaction (SPISettings.mk 1000000 BitOrder.MSBFIRST 0),
        Event.digitalWriteFast 10 0]
      (by decide) ⟨[], by decide⟩ (by decide)).1⟩

end DmaSpi
